import Mathlib

/-!
Verification of the f2 discovery-and-transactional-rename engine.

This file gives a shallow embedding, in Lean 4, of the core of the f2
repository (src/rename/rename.go, src/find/find.go,
src/internal/json/json.go) and proves or refutes the specification claims
about it.

Modelling conventions:
* The filesystem is a flat association list from full path strings to file
  contents (`FsMap`).  `os.Rename` moves one key; it overwrites an existing
  target, and fails when the source is absent or the target is write-denied
  (the `denied` set models permission failures).  `os.MkdirAll` succeeds
  (leaving the file map unchanged, directories are implicit in paths) unless
  the directory path is write-denied.
* `filepath.Join` is modelled without path cleaning: `joinPath b p` is
  `b ++ "/" ++ p` (or `p` when `b` is empty).  `runtime.GOOS` is fixed to a
  POSIX system, so the Windows-only branches (the backslash separator check
  and the drive-colon replacement) are dropped.
* `time.Now().UnixNano()` is modelled by a logical clock carried in the
  world state, bumped exactly where the Go code samples the time.
* `strings.EqualFold` is modelled as equality of the lowercased strings.
* The package-global `errs []int` slice of rename.go is threaded explicitly
  through `ProcState`, preserving its Go semantics: it is appended to and
  never reset, so it survives across invocations within one process, and
  the Go test `renameErrs != nil` corresponds to the list being nonempty.
* The backup file store (xdg data dir + os.Create truncation + JSON
  round-trip) is modelled as an association list from backup file name to
  the persisted change list; writing replaces any previous value.
-/

set_option maxHeartbeats 1000000

namespace F2

/-! ## Association-list maps (the substrate for the filesystem model) -/

def lookupA {α : Type} : List (String × α) → String → Option α
  | [], _ => none
  | (k, v) :: rest, p => if k = p then some v else lookupA rest p

def eraseKey {α : Type} : List (String × α) → String → List (String × α)
  | [], _ => []
  | (k, v) :: rest, p => if k = p then eraseKey rest p else (k, v) :: eraseKey rest p

def setKey {α : Type} (l : List (String × α)) (k : String) (v : α) : List (String × α) :=
  (k, v) :: eraseKey l k

theorem lookupA_eraseKey {α : Type} (l : List (String × α)) (k p : String) :
    lookupA (eraseKey l k) p = if p = k then none else lookupA l p := by
  induction l with
  | nil => simp [eraseKey, lookupA]
  | cons kv rest ih =>
    obtain ⟨k', v'⟩ := kv
    by_cases hk : k' = k
    · subst hk
      by_cases hp : p = k'
      · subst hp
        simp [eraseKey, lookupA, ih]
      · have hp' : ¬k' = p := fun h => hp h.symm
        simp [eraseKey, lookupA, ih, hp, hp']
    · by_cases hp : k' = p
      · have hp' : ¬p = k := fun h => hk (hp.trans h)
        simp [eraseKey, lookupA, hk, hp, hp']
      · simp [eraseKey, lookupA, hk, hp, ih]

theorem lookupA_setKey {α : Type} (l : List (String × α)) (k p : String) (v : α) :
    lookupA (setKey l k v) p = if p = k then some v else lookupA l p := by
  by_cases hp : p = k
  · subst hp
    simp [setKey, lookupA]
  · have hp' : ¬k = p := fun h => hp h.symm
    simp [setKey, lookupA, hp', lookupA_eraseKey, hp]

/-! ## Paths and string helpers -/

/-- Model of `filepath.Join` for two components (no path cleaning). -/
def joinPath (base p : String) : String :=
  if base = "" then p else base ++ "/" ++ p

/-- Model of `filepath.Dir`: everything before the final separator,
`"."` when there is none (computed on the character list so that concrete
instances reduce). -/
def dirname (p : String) : String :=
  match p.data.reverse.dropWhile (fun c => !(c == '/')) with
  | [] => "."
  | _ :: rest => String.mk rest.reverse

/-- ASCII case folding on a character code: fold upper case onto lower
case. -/
def foldNat (n : Nat) : Nat := if 65 ≤ n ∧ n ≤ 90 then n + 32 else n

/-- Model of `strings.EqualFold` (ASCII case folding): the two strings
agree character by character after folding. -/
def eqFold (a b : String) : Bool :=
  a.data.map (fun c => foldNat c.toNat) == b.data.map (fun c => foldNat c.toNat)

/-- The separator test of rename.go line 69 with `runtime.GOOS` fixed to a
POSIX system: only the forward-slash disjunct remains. -/
def containsSlash (t : String) : Bool := t.data.contains '/'

/-! ## The data model: Change and the world state -/

/-- Embedding of f2's `file.Change` (the fields the rename engine reads):
base directory, relative source and target, and the per-item error. -/
structure Change where
  baseDir : String
  source : String
  target : String
  error : Option String := none
deriving Repr, DecidableEq

def srcPath (c : Change) : String := joinPath c.baseDir c.source

def tgtPath (c : Change) : String := joinPath c.baseDir c.target

/-- The filesystem world: the file map, the set of write-denied paths
(modelling permission failures), and the logical nanosecond clock. -/
structure FsWorld where
  fs : List (String × String)
  denied : List String
  clock : Nat
deriving Repr, DecidableEq

/-- Model of `os.Rename`: fails when the source does not exist or the
target is write-denied; otherwise moves the entry, overwriting any existing
target (POSIX rename semantics). -/
def osRename (w : FsWorld) (src tgt : String) : Except String FsWorld :=
  match lookupA w.fs src with
  | none => Except.error "no such file"
  | some content =>
    if tgt ∈ w.denied then Except.error "permission denied"
    else Except.ok { w with fs := setKey (eraseKey w.fs src) tgt content }

/-- Model of `os.MkdirAll`: directories are implicit in the flat path map,
so success leaves the world unchanged; creation under a write-denied
directory path fails. -/
def mkdirAll (w : FsWorld) (dir : String) : Except String FsWorld :=
  if dir ∈ w.denied then Except.error "mkdir permission denied" else Except.ok w

/-! ## The rename executor (rename.go `rename`) -/

/-- The body of `rename` for one change, after the per-item bookkeeping has
chosen the real target path (rename.go lines 86-100): `os.Rename` to
`targetPath`, and, in the case-insensitive branch, the follow-up rename of
the intermediate to the original target — attempted only if the first
rename succeeded.  Returns the world, the (possibly error-marked) change,
and whether the item failed. -/
def renameCore (w : FsWorld) (c : Change) (ci : Bool)
    (sourcePath targetPath targetPath0 : String) : FsWorld × Change × Bool :=
  match osRename w sourcePath targetPath with
  | Except.error e => (w, { c with error := some e }, true)
  | Except.ok w1 =>
    if ci then
      match osRename w1 targetPath targetPath0 with
      | Except.error e => (w1, { c with error := some e }, true)
      | Except.ok w2 => (w2, c, false)
    else (w1, c, false)

/-- One iteration of the loop of `rename` (rename.go lines 40-101):
skip when the joined paths are equal; divert the target to the
`__<time>__`-prefixed intermediate when the paths are case-fold equal;
create missing target directories when the target contains a separator;
then perform the rename(s). -/
def renameStep (w : FsWorld) (c : Change) : FsWorld × Change × Bool :=
  let sourcePath := srcPath c
  let targetPath0 := tgtPath c
  if sourcePath = targetPath0 then (w, c, false)
  else
    let ci := eqFold sourcePath targetPath0
    let targetPath :=
      if ci then joinPath c.baseDir ("__" ++ toString w.clock ++ "__" ++ c.target)
      else targetPath0
    let w1 := if ci then { w with clock := w.clock + 1 } else w
    if containsSlash c.target then
      match mkdirAll w1 (joinPath c.baseDir (dirname c.target)) with
      | Except.error e => (w1, { c with error := some e }, true)
      | Except.ok w2 => renameCore w2 c ci sourcePath targetPath targetPath0
    else renameCore w1 c ci sourcePath targetPath targetPath0

/-- The loop of `rename` (rename.go lines 40-101).  `i` is the position of
the head of the remaining list in the original input, and `errs` is the
current value of the package-global failure-index slice, appended to on
every failed item; processing always continues with the next item. -/
def renameGo (w : FsWorld) (i : Nat) (errs : List Nat) :
    List Change → FsWorld × List Change × List Nat
  | [] => (w, [], errs)
  | c :: rest =>
    let s := renameStep w c
    let errs2 := if s.2.2 then errs ++ [i] else errs
    let r := renameGo s.1 (i + 1) errs2 rest
    (r.1, s.2.1 :: r.2.1, r.2.2)

/-- Process-wide state: the filesystem world, the backup-file store
(filename to persisted change list), and the package-global `errs` slice
of rename.go line 33. -/
structure ProcState where
  world : FsWorld
  store : List (String × List Change)
  errs : List Nat
deriving Repr, DecidableEq

/-- Embedding of `rename` (rename.go lines 37-104): runs the loop over all
changes, appending each failed index to the global `errs`, and returns the
global `errs`. -/
def renameFn (st : ProcState) (changes : List Change) :
    ProcState × List Change × List Nat :=
  let r := renameGo st.world 0 st.errs changes
  ({ st with world := r.1, errs := r.2.2 }, r.2.1, r.2.2)

/-! ## The backup store (rename.go `backupChanges`) -/

/-- Model of the working-directory sanitization (rename.go lines 109-116,
POSIX branch): every path separator is replaced by an underscore. -/
def sanitizeWd (wd : String) : String :=
  String.mk (wd.data.map (fun c => if c == '/' then '_' else c))

/-- The backup filename for a working directory (rename.go line 118). -/
def backupName (wd : String) : String := sanitizeWd wd ++ ".json"

/-- Removal of the element at index `i` from a slice,
`append(sc[:i], sc[i+1:]...)` (rename.go lines 147-149). -/
def removeIdx (l : List Change) (i : Nat) : List Change :=
  l.take i ++ l.drop (i + 1)

/-- The backwards removal loop of `backupChanges` (rename.go lines
145-151): walk the index from the end to the front, removing every change
whose `Error` is non-nil. `backupLoop l (i+1)` performs the iteration that
examines index `i`. -/
def backupLoop (l : List Change) : Nat → List Change
  | 0 => l
  | i + 1 =>
    backupLoop
      (if ((l.get? i).map (fun c => c.error.isSome)).getD false then removeIdx l i else l) i

/-- Embedding of `backupChanges` (rename.go lines 108-166): derive the
backup filename from the working directory, drop the errored changes, and
overwrite (truncate-create) the backup file for that working directory
with the surviving list.  Serialization and the buffered writer are
IO-level details abstracted into the store write. -/
def backupChanges (st : ProcState) (changes : List Change) (cwd : String) : ProcState :=
  let successfulChanges := backupLoop changes changes.length
  { st with store := setKey st.store (backupName cwd) successfulChanges }

/-! ## commit, Rename and Undo -/

/-- The configuration flags the rename/undo pipeline reads. -/
structure Config where
  exec : Bool
  revert : Bool
  includeDir : Bool
  interactive : Bool
  json : Bool
  workingDir : String
deriving Repr, DecidableEq

/-- Modelled from the spec: `sortfiles.FilesBeforeDirs` is not part of the
sources under verification (src/ holds only its callers).  Spec sections
4.2 and 4.4 describe it as a stable files-before-directories reordering,
which preserves the order of change lists that contain no directory
entries; the model covers that case and takes the function to be the
identity. -/
def filesBeforeDirs (l : List Change) (_revert : Bool) : List Change := l

/-- The cosmetic post-pass of `commit` (rename.go lines 211-217):
`sort.SliceStable` with the comparator `Error == nil`, i.e. a stable
partition moving error-free changes before errored ones. -/
def stableErrsLast (l : List Change) : List Change :=
  l.filter (fun c => c.error.isNone) ++ l.filter (fun c => c.error.isSome)

/-- Embedding of `commit` (rename.go lines 171-220): run the rename loop
(assigning the global `errs`), write the backup file unless this is a
revert, and, when there are failures, stably float the errored changes to
the back of the list for reporting. -/
def commit (st : ProcState) (conf : Config) (fileChanges : List Change) :
    ProcState × List Change × List Nat :=
  let r := renameFn st fileChanges
  let st1 := r.1
  let changes1 := r.2.1
  let errsAll := r.2.2
  let st2 := if conf.revert then st1 else backupChanges st1 changes1 conf.workingDir
  let changes2 := if errsAll ≠ [] then stableErrsLast changes1 else changes1
  (st2, changes2, errsAll)

inductive RenameError where
  | renameFailed
deriving Repr, DecidableEq

/-- Embedding of `Rename` (rename.go lines 224-254): sort files before
directories when directories are included, return after reporting when in
pure dry-run mode, and otherwise commit, failing when the returned
failure-index slice is non-nil (nonempty). -/
def RenameTop (conf : Config) (st : ProcState) (fileChanges : List Change) :
    Option RenameError × ProcState × List Change :=
  let fileChanges1 :=
    if conf.includeDir then filesBeforeDirs fileChanges conf.revert else fileChanges
  if !conf.interactive && !conf.exec && !conf.json then (none, st, fileChanges1)
  else if !conf.exec then (none, st, fileChanges1)
  else
    let r := commit st conf fileChanges1
    (if r.2.2 ≠ [] then some RenameError.renameFailed else none, r.1, r.2.1)

inductive UndoResult where
  | nothingToUndo
  | undoFailed
  | backupRemovalFailed
  | ok
deriving Repr, DecidableEq

/-- The source/target swap Undo applies to every recorded change
(rename.go lines 320-330). -/
def swapChange (c : Change) : Change :=
  { c with source := c.target, target := c.source }

/-- Embedding of `Undo` (rename.go lines 291-351): look up the backup for
the sanitized working directory (absence is the distinct nothing-to-undo
outcome), swap source and target of every recorded change, re-sort files
before directories, re-enter the `Rename` pipeline, and on a failed
inverse commit surface the undo-failed outcome; on success delete the
spent backup file, a failed deletion (modelled by `removeOk = false`)
being the distinct backup-removal outcome. -/
def Undo (conf : Config) (st : ProcState) (removeOk : Bool) : UndoResult × ProcState :=
  let key := backupName conf.workingDir
  match lookupA st.store key with
  | none => (UndoResult.nothingToUndo, st)
  | some storedChanges =>
    let changes := storedChanges.map swapChange
    let changes2 := filesBeforeDirs changes conf.revert
    let r := RenameTop conf st changes2
    match r.1 with
    | some _ => (UndoResult.undoFailed, r.2.1)
    | none =>
      if conf.exec then
        if removeOk then
          (UndoResult.ok, { r.2.1 with store := eraseKey r.2.1.store key })
        else (UndoResult.backupRemovalFailed, r.2.1)
      else (UndoResult.ok, r.2.1)

/-! ## Path discovery: the recursive walk (find.go `walk`) -/

/-- A directory entry as the walk sees it: name and is-directory flag. -/
structure Entry where
  name : String
  isDir : Bool
deriving Repr, DecidableEq

/-- The on-disk directory structure the walk reads through `os.ReadDir`:
directory path to its entries.  Reading an unknown path yields no
entries. -/
def readDir (fsys : List (String × List Entry)) (p : String) : List Entry :=
  (lookupA fsys p).getD []

/-- Modelled from the spec: `isHidden` lives in a platform file outside
src/; spec section 4.1 fixes the POSIX convention of a dot prefix. -/
def isHiddenName (n : String) : Bool :=
  match n.data with
  | [] => false
  | c :: _ => c == '.'

/-- Embedding of `removeHidden` (find.go lines 138-154). -/
def removeHidden (es : List Entry) : List Entry :=
  es.filter (fun e => !isHiddenName e.name)

/-- One pass over `paths` between two `goto loop` jumps (find.go lines
169-198): every directory not yet in the visited set has its
subdirectories' contents loaded into the current-level buffer (a map, so
duplicate keys overwrite) and is appended to the visited set. -/
def expandPass (fsys : List (String × List Entry)) (includeHidden : Bool) :
    List (String × List Entry) → List String → List (String × List Entry) →
    List (String × List Entry) × List String
  | [], visited, level => (level, visited)
  | (dir, contents) :: rest, visited, level =>
    if dir ∈ visited then expandPass fsys includeHidden rest visited level
    else
      let contents2 := if includeHidden then contents else removeHidden contents
      let subs := contents2.filter (fun e => e.isDir)
      let level2 := subs.foldl
        (fun acc e => setKey acc (joinPath dir e.name) (readDir fsys (joinPath dir e.name)))
        level
      expandPass fsys includeHidden rest (visited ++ [dir]) level2

/-- The merge of the current-level buffer into the path set (find.go lines
204-208): each buffered directory's contents are stored under its path. -/
def mergeLevel (paths level : List (String × List Entry)) :
    List (String × List Entry) :=
  level.foldl (fun acc kv => setKey acc kv.1 kv.2) paths

/-- The iteration of `walk` (find.go lines 156-217), fuelled to express the
unstructured `goto loop` as structural recursion: run one pass; if the
level buffer stayed empty, return; otherwise merge it, bump the depth
counter, and stop when a positive `maxDepth` has been reached, else loop.
Returns the path set, the number of levels expanded, and the visited
set. -/
def walkAux (fsys : List (String × List Entry)) (includeHidden : Bool) (maxDepth : Int) :
    Nat → List (String × List Entry) → List String → Nat →
    List (String × List Entry) × Nat × List String
  | 0, paths, visited, depth => (paths, depth, visited)
  | fuel + 1, paths, visited, depth =>
    let pr := expandPass fsys includeHidden paths visited []
    if pr.1 = [] then (paths, depth, pr.2)
    else
      let paths2 := mergeLevel paths pr.1
      let depth2 := depth + 1
      if maxDepth > 0 ∧ (depth2 : Int) = maxDepth then (paths2, depth2, pr.2)
      else walkAux fsys includeHidden maxDepth fuel paths2 pr.2 depth2

/-- Fuel sufficient for the walk: every pass that keeps the loop going
visits at least one new directory, and every visitable directory comes
from the initial path set or from an entry listed in it or in the
directory structure. -/
def walkFuel (fsys paths : List (String × List Entry)) : Nat :=
  paths.length + (paths.map (fun kv => kv.2.length)).sum
    + fsys.length + (fsys.map (fun kv => kv.2.length)).sum + 1

/-- Embedding of `walk` (find.go lines 156-217). -/
def walk (fsys : List (String × List Entry)) (paths : List (String × List Entry))
    (maxDepth : Int) (includeHidden : Bool) : List (String × List Entry) :=
  (walkAux fsys includeHidden maxDepth (walkFuel fsys paths) paths [] 0).1

/-- The number of levels the walk expanded (the final value of
`currentDepth`). -/
def walkDepth (fsys : List (String × List Entry)) (paths : List (String × List Entry))
    (maxDepth : Int) (includeHidden : Bool) : Nat :=
  (walkAux fsys includeHidden maxDepth (walkFuel fsys paths) paths [] 0).2.1

/-- The visited set of the walk (the final value of `recursedPaths`). -/
def walkVisited (fsys : List (String × List Entry)) (paths : List (String × List Entry))
    (maxDepth : Int) (includeHidden : Bool) : List String :=
  (walkAux fsys includeHidden maxDepth (walkFuel fsys paths) paths [] 0).2.2

/-! ## The JSON output schema (internal/json/json.go) -/

inductive JsonVal where
  | null
  | str (s : String)
  | num (n : Int)
  | boolean (b : Bool)
  | arr (xs : List JsonVal)
  | obj (fields : List (String × JsonVal))

/-- Embedding of the `Output` struct (json.go lines 15-22).  `changes`
models the Go slice `[]*file.Change` including its nil-ness: `none` is a
nil slice, `some []` a non-nil empty one.  For `conflicts` (opaque) and
`errors` only emptiness is observable through `omitempty`. -/
structure Output where
  conflicts : List String
  workingDir : String
  date : String
  changes : Option (List Change)
  errors : List Int
  dryRun : Bool
deriving Repr, DecidableEq

/-- Modelled from the spec: the JSON encoding of one `file.Change` (the
`file` package is outside src/); spec section 6 lists the fields `source`,
`target` and `base_dir`. -/
def changeToJson (c : Change) : JsonVal :=
  JsonVal.obj
    [("source", JsonVal.str c.source), ("target", JsonVal.str c.target),
     ("base_dir", JsonVal.str c.baseDir)]

/-- The fields `encoding/json` emits for `Output`, in struct order, with
the `omitempty` rule of Go applied exactly as tagged in json.go lines
16-21: a slice field carrying `omitempty` is dropped when it is nil or has
length zero (`conflicts`, `changes`, `errors`); `working_dir`, `date` and
`dry_run` carry no `omitempty` and are always present. -/
def marshalOutputFields (o : Output) : List (String × JsonVal) :=
  (if o.conflicts = [] then [] else [("conflicts", JsonVal.arr (o.conflicts.map JsonVal.str))])
    ++ [("working_dir", JsonVal.str o.workingDir), ("date", JsonVal.str o.date)]
    ++ (match o.changes with
        | none => []
        | some l => if l = [] then [] else [("changes", JsonVal.arr (l.map changeToJson))])
    ++ (if o.errors = [] then [] else [("errors", JsonVal.arr (o.errors.map JsonVal.num))])
    ++ [("dry_run", JsonVal.boolean o.dryRun)]

/-- Embedding of `GetOutput` (json.go lines 24-47): build the `Output`
value, replace a nil `Changes` slice by an empty non-nil one (the guard of
lines 36-39), and marshal.  The configuration-derived fields are passed as
parameters. -/
def GetOutput (changes : Option (List Change)) (errs : List Int)
    (workingDir date : String) (dryRun : Bool) (conflicts : List String) :
    List (String × JsonVal) :=
  let out : Output :=
    { conflicts := conflicts, workingDir := workingDir, date := date,
      changes := changes, errors := errs, dryRun := dryRun }
  let out2 := if out.changes = none then { out with changes := some [] } else out
  marshalOutputFields out2

/-! ## Specification helpers for the rename loop -/

/-- The failure positions (relative to start index `i`) the loop records,
computed alongside the world it threads. -/
def failuresSpec (w : FsWorld) (i : Nat) : List Change → List Nat
  | [] => []
  | c :: rest =>
    let s := renameStep w c
    (if s.2.2 then [i] else []) ++ failuresSpec s.1 (i + 1) rest

/-- The world state just before the loop processes position `j`. -/
def worldAt (w : FsWorld) : List Change → Nat → FsWorld
  | _, 0 => w
  | [], _ + 1 => w
  | c :: rest, j + 1 => worldAt (renameStep w c).1 rest j

theorem renameGo_errs (w : FsWorld) (i : Nat) (errs : List Nat) (cs : List Change) :
    (renameGo w i errs cs).2.2 = errs ++ failuresSpec w i cs := by
  induction cs generalizing w i errs with
  | nil => simp [renameGo, failuresSpec]
  | cons c rest ih =>
    by_cases hf : (renameStep w c).2.2
    · simp [renameGo, failuresSpec, hf, ih]
    · simp [renameGo, failuresSpec, hf, ih]

theorem renameGo_length (w : FsWorld) (i : Nat) (errs : List Nat) (cs : List Change) :
    (renameGo w i errs cs).2.1.length = cs.length := by
  induction cs generalizing w i errs with
  | nil => simp [renameGo]
  | cons c rest ih => simp [renameGo, ih]

theorem renameGo_get (w : FsWorld) (i : Nat) (errs : List Nat) (cs : List Change)
    (j : Nat) (c : Change) (hc : cs[j]? = some c) :
    (renameGo w i errs cs).2.1[j]?
      = some (renameStep (worldAt w cs j) c).2.1 := by
  induction cs generalizing w i errs j with
  | nil => simp at hc
  | cons c0 rest ih =>
    cases j with
    | zero =>
      simp at hc
      subst hc
      simp [renameGo, worldAt]
    | succ j' =>
      simp at hc
      simpa [renameGo, worldAt] using ih (renameStep w c0).1 (i + 1) _ j' hc

theorem mem_failuresSpec (w : FsWorld) (i k : Nat) (cs : List Change) :
    k ∈ failuresSpec w i cs
      ↔ ∃ j c, cs[j]? = some c ∧ k = i + j
          ∧ (renameStep (worldAt w cs j) c).2.2 = true := by
  induction cs generalizing w i with
  | nil => simp [failuresSpec]
  | cons c0 rest ih =>
    constructor
    · intro hk
      by_cases hf : (renameStep w c0).2.2
      · simp [failuresSpec, hf] at hk
        rcases hk with hk | hk
        · exact ⟨0, c0, by simp, by omega, by simpa [worldAt] using hf⟩
        · rcases (ih (renameStep w c0).1 (i + 1)).1 hk with ⟨j, c, hc, hkj, hfail⟩
          exact ⟨j + 1, c, by simpa using hc, by omega, by simpa [worldAt] using hfail⟩
      · simp [failuresSpec, hf] at hk
        rcases (ih (renameStep w c0).1 (i + 1)).1 hk with ⟨j, c, hc, hkj, hfail⟩
        exact ⟨j + 1, c, by simpa using hc, by omega, by simpa [worldAt] using hfail⟩
    · rintro ⟨j, c, hc, hkj, hfail⟩
      cases j with
      | zero =>
        simp at hc
        subst hc
        simp [worldAt] at hfail
        simp [failuresSpec, hfail, hkj]
      | succ j' =>
        simp at hc
        simp [worldAt] at hfail
        have : k ∈ failuresSpec (renameStep w c0).1 (i + 1) rest :=
          (ih (renameStep w c0).1 (i + 1)).2 ⟨j', c, hc, by omega, hfail⟩
        by_cases hf : (renameStep w c0).2.2 <;> simp [failuresSpec, hf, this]

theorem renameCore_shape (w : FsWorld) (c : Change) (ci : Bool)
    (sp tp tp0 : String) :
    ((renameCore w c ci sp tp tp0).2.2 = true
        → ∃ e, (renameCore w c ci sp tp tp0).2.1 = { c with error := some e })
      ∧ ((renameCore w c ci sp tp tp0).2.2 = false
        → (renameCore w c ci sp tp tp0).2.1 = c) := by
  unfold renameCore
  cases h1 : osRename w sp tp with
  | error e => simp
  | ok w1 =>
    cases ci with
    | false => simp
    | true =>
      cases h2 : osRename w1 tp tp0 with
      | error e => simp [h2]
      | ok w2 => simp [h2]

theorem renameStep_shape (w : FsWorld) (c : Change) :
    ((renameStep w c).2.2 = true
        → ∃ e, (renameStep w c).2.1 = { c with error := some e })
      ∧ ((renameStep w c).2.2 = false → (renameStep w c).2.1 = c) := by
  unfold renameStep
  by_cases heq : srcPath c = tgtPath c
  · simp [heq]
  · simp only [heq, if_false]
    by_cases hsl : containsSlash c.target
    · simp only [hsl, if_true]
      cases hm : mkdirAll (if eqFold (srcPath c) (tgtPath c) then { w with clock := w.clock + 1 } else w)
          (joinPath c.baseDir (dirname c.target)) with
      | error e => simp
      | ok w2 => simpa using renameCore_shape w2 c _ _ _ _
    · simp only [hsl, if_false]
      simpa using renameCore_shape _ c _ _ _ _

/-- C2.  Commit is fail-soft and never stops early: a failing item's index
is appended to the failure list, the error is recorded on that Change, and
every change after the failing position is still attempted (each later
item's outcome is exactly its own step applied to the threaded world, and
the processed list keeps the full length). -/
theorem commit_fail_soft (st : ProcState) (conf : Config) (cs : List Change)
    (i : Nat) (c : Change) (hc : cs[i]? = some c)
    (hfail : (renameStep (worldAt st.world cs i) c).2.2 = true) :
    i ∈ (commit st conf cs).2.2
      ∧ (∃ e, (renameFn st cs).2.1[i]? = some { c with error := some e })
      ∧ (renameFn st cs).2.1.length = cs.length
      ∧ (∀ j c', i < j → cs[j]? = some c' →
          (renameFn st cs).2.1[j]? = some (renameStep (worldAt st.world cs j) c').2.1) := by
  refine ⟨?_, ?_, ?_, ?_⟩
  · have hmem : i ∈ failuresSpec st.world 0 cs :=
      (mem_failuresSpec st.world 0 i cs).2 ⟨i, c, hc, by omega, hfail⟩
    have : (commit st conf cs).2.2 = st.errs ++ failuresSpec st.world 0 cs := by
      simp [commit, renameFn, renameGo_errs]
    rw [this]
    exact List.mem_append_right _ hmem
  · have hget := renameGo_get st.world 0 st.errs cs i c hc
    rcases (renameStep_shape (worldAt st.world cs i) c).1 hfail with ⟨e, he⟩
    exact ⟨e, by simpa [renameFn, he] using hget⟩
  · simpa [renameFn] using renameGo_length st.world 0 st.errs cs
  · intro j c' _ hc'
    simpa [renameFn] using renameGo_get st.world 0 st.errs cs j c' hc'

/-- A concrete execute-mode configuration used by the witnesses. -/
def exConf : Config :=
  { exec := true, revert := false, includeDir := false, interactive := false,
    json := false, workingDir := "wd" }

/-- A concrete process state used by the witnesses: one file `a`, nothing
denied. -/
def exSt : ProcState :=
  { world := { fs := [("a", "A")], denied := [], clock := 0 }, store := [], errs := [] }

/-- A concrete two-item batch whose first item fails (missing source) and
whose second succeeds. -/
def exBatch : List Change :=
  [{ baseDir := "", source := "gone", target := "g2", error := none },
   { baseDir := "", source := "a", target := "b", error := none }]

/-- Witness for C2 at a concrete input: a two-item batch whose first item
fails on a missing source; the second item is still attempted and the
failing index is reported. -/
theorem commit_fail_soft_witness :
    exBatch[0]? = some { baseDir := "", source := "gone", target := "g2", error := none }
      ∧ 0 ∈ (commit exSt exConf exBatch).2.2 := by
  refine ⟨by decide, ?_⟩
  exact (commit_fail_soft exSt exConf exBatch
    0 { baseDir := "", source := "gone", target := "g2", error := none }
    (by decide) (by decide)).1

/-- C3 (amended).  Within a single invocation of commit that starts from an
empty process-global error accumulator, the returned failure-index list
contains exactly the positions, in the input list, of the changes whose
step failed during that invocation. -/
theorem commit_exact_indices (st : ProcState) (conf : Config) (cs : List Change)
    (h0 : st.errs = []) (k : Nat) :
    k ∈ (commit st conf cs).2.2
      ↔ ∃ c, cs[k]? = some c
          ∧ (renameStep (worldAt st.world cs k) c).2.2 = true := by
  have hc : (commit st conf cs).2.2 = st.errs ++ failuresSpec st.world 0 cs := by
    simp [commit, renameFn, renameGo_errs]
  rw [hc, h0, List.nil_append, mem_failuresSpec]
  constructor
  · rintro ⟨j, c, hj, hk, hf⟩
    have hkj : k = j := by omega
    subst hkj
    exact ⟨c, hj, hf⟩
  · rintro ⟨c, hk, hf⟩
    exact ⟨k, c, hk, by omega, hf⟩

/-- Witness for C3's amended statement at a concrete input: in a fresh
process the failing batch reports exactly index 0. -/
theorem commit_exact_indices_witness :
    0 ∈ (commit exSt exConf exBatch).2.2
      ↔ ∃ c, exBatch[0]? = some c
          ∧ (renameStep (worldAt exSt.world exBatch 0) c).2.2 = true :=
  commit_exact_indices exSt exConf exBatch rfl 0

/-- A one-item batch that fails (missing source). -/
def exFailBatch : List Change :=
  [{ baseDir := "", source := "gone", target := "g2", error := none }]

/-- A one-item batch that succeeds against `exSt`'s filesystem. -/
def exOkBatch : List Change :=
  [{ baseDir := "", source := "a", target := "b", error := none }]

/-- C3 counterexample.  The failure accumulator is the package-global
`errs` slice of rename.go, never reset between invocations: after a first
commit whose only change fails (recording index 0), a second commit in the
same process whose only change succeeds still returns a list containing
index 0 — an index recorded by an earlier commit appears in a later
invocation's result, refuting the claim as stated. -/
theorem commit_stale_index_counterexample :
    (renameStep (commit exSt exConf exFailBatch).1.world
        { baseDir := "", source := "a", target := "b", error := none }).2.2 = false
      ∧ (commit (commit exSt exConf exFailBatch).1 exConf exOkBatch).2.2 = [0] := by
  constructor
  · decide
  · decide

/-- C5.  A change whose joined source and target paths are equal is
skipped: the step leaves the world untouched and the change unmarked, the
index is not counted as a failure by the invocation (starting from an
empty accumulator), and the change comes out of the loop unmodified. -/
theorem commit_noop_skip (st : ProcState) (conf : Config) (cs : List Change)
    (i : Nat) (c : Change) (h0 : st.errs = []) (hc : cs[i]? = some c)
    (heq : srcPath c = tgtPath c) :
    renameStep (worldAt st.world cs i) c = (worldAt st.world cs i, c, false)
      ∧ i ∉ (commit st conf cs).2.2
      ∧ (renameFn st cs).2.1[i]? = some c := by
  have hstep : ∀ w, renameStep w c = (w, c, false) := by
    intro w
    unfold renameStep
    simp [heq]
  refine ⟨hstep _, ?_, ?_⟩
  · intro hmem
    rcases (commit_exact_indices st conf cs h0 i).1 hmem with ⟨c', hc', hf⟩
    rw [hc] at hc'
    cases hc'
    rw [hstep] at hf
    simp at hf
  · have := renameGo_get st.world 0 st.errs cs i c hc
    rw [hstep] at this
    simpa [renameFn] using this

/-- A concrete no-op batch: source and target coincide. -/
def exNoopBatch : List Change :=
  [{ baseDir := "", source := "a", target := "a", error := none }]

/-- Witness for C5 at a concrete input. -/
theorem commit_noop_skip_witness :
    renameStep (worldAt exSt.world exNoopBatch 0)
        { baseDir := "", source := "a", target := "a", error := none }
      = (worldAt exSt.world exNoopBatch 0,
         { baseDir := "", source := "a", target := "a", error := none }, false)
      ∧ 0 ∉ (commit exSt exConf exNoopBatch).2.2
      ∧ (renameFn exSt exNoopBatch).2.1[0]?
        = some { baseDir := "", source := "a", target := "a", error := none } :=
  commit_noop_skip exSt exConf exNoopBatch 0
    { baseDir := "", source := "a", target := "a", error := none }
    rfl (by decide) (by decide)

theorem joinPath_len_ne (b x y : String) (h : x.length ≠ y.length) :
    joinPath b x ≠ joinPath b y := by
  unfold joinPath
  by_cases hb : b = ""
  · simp only [hb, if_true]
    intro he
    exact h (congrArg String.length he)
  · simp only [hb, if_false]
    intro he
    have hlen := congrArg String.length he
    simp only [String.length_append] at hlen
    omega

theorem interName_len (ts t : String) :
    ("__" ++ ts ++ "__" ++ t).length = t.length + ts.length + 4 := by
  have h2 : ("__" : String).length = 2 := rfl
  simp only [String.length_append, h2]
  omega

/-- The intermediate target of the case-fold branch never coincides with
the true target. -/
theorem inter_ne_target (b ts t : String) :
    joinPath b ("__" ++ ts ++ "__" ++ t) ≠ joinPath b t := by
  apply joinPath_len_ne
  rw [interName_len]
  omega

/-- The filesystem after the two renames of the case-fold branch:
source moved to the intermediate, then the intermediate moved to the true
target. -/
def twoStepFs (fs : List (String × String)) (sp inter tp v : String) :
    List (String × String) :=
  setKey (eraseKey (setKey (eraseKey fs sp) inter v) inter) tp v

theorem renameStep_casefold_eq (w : FsWorld) (c : Change)
    (hne : srcPath c ≠ tgtPath c)
    (hef : eqFold (srcPath c) (tgtPath c) = true)
    (hden : w.denied = []) :
    renameStep w c
      = renameCore { w with clock := w.clock + 1 } c true (srcPath c)
          (joinPath c.baseDir ("__" ++ toString w.clock ++ "__" ++ c.target))
          (tgtPath c) := by
  unfold renameStep
  simp only [hne, if_false, hef, if_true]
  by_cases hsl : containsSlash c.target
  · simp [hsl, mkdirAll, hden]
  · simp [hsl]

/-- C4 (amended).  When the joined source and target are case-fold equal
but differ, commit performs a two-step rename through the intermediate
`__<clock>__<Target>` joined to the base directory: if the first rename
fails the item is marked failed and the filesystem is untouched (the
second rename is never attempted); if the source exists (and nothing is
write-denied) both renames succeed, the target holds the source's content,
and no file remains at the intermediate path.  (The claim's further
assertion that the intermediate lies in the same directory as the target
fails for targets containing a separator, see the counterexample.) -/
theorem commit_casefold_two_step (w : FsWorld) (c : Change)
    (hne : srcPath c ≠ tgtPath c)
    (hef : eqFold (srcPath c) (tgtPath c) = true)
    (hden : w.denied = []) :
    (lookupA w.fs (srcPath c) = none →
        (renameStep w c).1.fs = w.fs
          ∧ (renameStep w c).2.2 = true
          ∧ ∃ e, (renameStep w c).2.1 = { c with error := some e })
      ∧ (∀ v, lookupA w.fs (srcPath c) = some v →
          (renameStep w c).2.2 = false
            ∧ (renameStep w c).2.1 = c
            ∧ lookupA (renameStep w c).1.fs (tgtPath c) = some v
            ∧ lookupA (renameStep w c).1.fs
                (joinPath c.baseDir ("__" ++ toString w.clock ++ "__" ++ c.target))
              = none) := by
  have hred := renameStep_casefold_eq w c hne hef hden
  constructor
  · intro hl
    rw [hred]
    unfold renameCore
    rw [show osRename { fs := w.fs, denied := w.denied, clock := w.clock + 1 } (srcPath c)
          (joinPath c.baseDir ("__" ++ toString w.clock ++ "__" ++ c.target))
        = Except.error "no such file" from by simp [osRename, hl]]
    simp
  · intro v hl
    rw [hred]
    have hit := inter_ne_target c.baseDir (toString w.clock) c.target
    have hcore : renameCore { fs := w.fs, denied := w.denied, clock := w.clock + 1 } c true
        (srcPath c) (joinPath c.baseDir ("__" ++ toString w.clock ++ "__" ++ c.target))
        (tgtPath c)
        = (⟨twoStepFs w.fs (srcPath c)
              (joinPath c.baseDir ("__" ++ toString w.clock ++ "__" ++ c.target))
              (tgtPath c) v,
            w.denied, w.clock + 1⟩, c, false) := by
      simp [renameCore, osRename, twoStepFs, hl, hden, lookupA_setKey]
    have hit2 : joinPath c.baseDir ("__" ++ toString w.clock ++ "__" ++ c.target)
        ≠ tgtPath c := by
      simpa [tgtPath] using hit
    rw [hcore]
    refine ⟨rfl, rfl, ?_, ?_⟩
    · simp [twoStepFs, lookupA_setKey]
    · simp only [twoStepFs, lookupA_setKey, lookupA_eraseKey, hit2, if_false]
      simp

/-- A case-fold rename world: `file.txt` exists, nothing denied. -/
def exCfWorld : FsWorld := { fs := [("file.txt", "A")], denied := [], clock := 5 }

/-- The case-only rename `file.txt` to `FILE.txt`. -/
def exCfChange : Change :=
  { baseDir := "", source := "file.txt", target := "FILE.txt", error := none }

/-- Witness for C4 at a concrete input: the case-only rename succeeds, the
target holds the content, and no intermediate-named file remains. -/
theorem commit_casefold_two_step_witness :
    (renameStep exCfWorld exCfChange).2.2 = false
      ∧ (renameStep exCfWorld exCfChange).2.1 = exCfChange
      ∧ lookupA (renameStep exCfWorld exCfChange).1.fs (tgtPath exCfChange) = some "A"
      ∧ lookupA (renameStep exCfWorld exCfChange).1.fs
          (joinPath exCfChange.baseDir
            ("__" ++ toString exCfWorld.clock ++ "__" ++ exCfChange.target))
        = none :=
  (commit_casefold_two_step exCfWorld exCfChange (by decide) (by decide) rfl).2
    "A" (by decide)

/-- A case-fold rename whose target lies in a subdirectory, with the true
target write-denied so that the intermediate file is left in place and can
be observed. -/
def exCfDirWorld : FsWorld := { fs := [("d/X", "v")], denied := ["d/x"], clock := 37 }

def exCfDirChange : Change :=
  { baseDir := "", source := "d/X", target := "d/x", error := none }

/-- C4 counterexample for the location clause.  For a target containing a
separator, the intermediate the code builds prefixes the whole relative
target, so the intermediate lands in a different directory from the
target: renaming `d/X` to `d/x` creates the intermediate `__37__d/x`,
whose directory is `__37__d` while the target's directory is `d`.  This refutes
the claim that the intermediate is located in the same directory as the
target. -/
theorem casefold_intermediate_location_counterexample :
    eqFold (srcPath exCfDirChange) (tgtPath exCfDirChange) = true
      ∧ srcPath exCfDirChange ≠ tgtPath exCfDirChange
      ∧ (renameStep exCfDirWorld exCfDirChange).1.fs = [("__37__d/x", "v")]
      ∧ dirname "__37__d/x" = "__37__d"
      ∧ dirname (tgtPath exCfDirChange) = "d"
      ∧ dirname "__37__d/x" ≠ dirname (tgtPath exCfDirChange) := by
  refine ⟨by decide, by decide, by decide, by decide, by decide, by decide⟩

theorem backupLoop_take_drop (l : List Change) :
    ∀ i, i ≤ l.length →
      backupLoop l i
        = (l.take i).filter (fun c => c.error.isNone) ++ l.drop i := by
  intro i
  induction i generalizing l with
  | zero => intro _; simp [backupLoop]
  | succ i ih =>
    intro hle
    have hi : i < l.length := by omega
    have hget : l.get? i = some l[i] := by
      simp [List.get?_eq_getElem?, List.getElem?_eq_getElem hi]
    by_cases herr : l[i].error.isSome
    · have hcond : ((l.get? i).map (fun c => c.error.isSome)).getD false = true := by
        rw [hget]
        simpa using herr
      rw [backupLoop, hcond, if_pos rfl]
      have hlen : (removeIdx l i).length = l.length - 1 := by
        simp [removeIdx]
        omega
      have hrec := ih (removeIdx l i) (by omega)
      rw [hrec]
      have htake : (removeIdx l i).take i = l.take i := by
        have hlt : (l.take i).length = i := by
          simp [List.length_take]
          omega
        rw [removeIdx, List.take_append_eq_append_take, hlt]
        simp
      have hdrop : (removeIdx l i).drop i = l.drop (i + 1) := by
        have hlt : (l.take i).length = i := by
          simp [List.length_take]
          omega
        rw [removeIdx, List.drop_append_eq_append_drop, hlt]
        simp
      rw [htake, hdrop]
      have htake1 : l.take (i + 1) = l.take i ++ [l[i]] := by
        rw [List.take_succ]
        simp [List.getElem?_eq_getElem hi]
      rw [htake1, List.filter_append]
      have hnone : l[i].error.isNone = false := by
        cases h : l[i].error.isNone
        · rfl
        · rw [Option.isNone_iff_eq_none] at h
          rw [h] at herr
          simp at herr
      have : [l[i]].filter (fun c => c.error.isNone) = [] := by
        simp [List.filter, hnone]
      rw [this, List.append_nil]
    · have hcond : ((l.get? i).map (fun c => c.error.isSome)).getD false = false := by
        rw [hget]
        simpa using herr
      rw [backupLoop, hcond]
      simp only [Bool.false_eq_true, if_false]
      rw [ih l (by omega)]
      have hdrop : l.drop i = l[i] :: l.drop (i + 1) := List.drop_eq_getElem_cons hi
      have htake1 : l.take (i + 1) = l.take i ++ [l[i]] := by
        rw [List.take_succ]
        simp [List.getElem?_eq_getElem hi]
      rw [hdrop, htake1, List.filter_append]
      have hnone : l[i].error.isNone = true := by
        cases h : l[i].error.isNone
        · rw [Option.isNone_eq_false_iff, Option.isSome_iff_ne_none] at h
          rw [Option.isSome_iff_ne_none] at herr
          exact absurd h herr
        · rfl
      have : [l[i]].filter (fun c => c.error.isNone) = [l[i]] := by
        simp [List.filter, hnone]
      rw [this]
      simp

/-- The backwards removal loop of `backupChanges` computes exactly the
order-preserving filter keeping the changes with no recorded error. -/
theorem backupLoop_eq_filter (l : List Change) :
    backupLoop l l.length = l.filter (fun c => c.error.isNone) := by
  rw [backupLoop_take_drop l l.length (by omega)]
  simp

/-- C6.  The persisted snapshot for a working directory is the input list
with every errored change removed, order preserved; the write overwrites
whatever snapshot was previously stored under that working directory's
backup name (truncate-create), leaves other keys alone, and touches
neither the filesystem world nor the error accumulator. -/
theorem backupChanges_snapshot (st : ProcState) (cs : List Change) (cwd : String) :
    lookupA (backupChanges st cs cwd).store (backupName cwd)
        = some (cs.filter (fun c => c.error.isNone))
      ∧ (∀ key, key ≠ backupName cwd →
          lookupA (backupChanges st cs cwd).store key = lookupA st.store key)
      ∧ (backupChanges st cs cwd).world = st.world
      ∧ (backupChanges st cs cwd).errs = st.errs := by
  refine ⟨?_, ?_, rfl, rfl⟩
  · simp [backupChanges, lookupA_setKey, backupLoop_eq_filter]
  · intro key hk
    simp [backupChanges, lookupA_setKey, hk]

/-- A batch with one errored and one clean change. -/
def exMixedBatch : List Change :=
  [{ baseDir := "", source := "x", target := "y", error := some "boom" },
   { baseDir := "", source := "a", target := "b", error := none }]

/-- Witness for C6 at a concrete input: the errored change is dropped from
the snapshot and an unrelated store key is untouched. -/
theorem backupChanges_snapshot_witness :
    lookupA (backupChanges exSt exMixedBatch "wd").store (backupName "wd")
        = some (exMixedBatch.filter (fun c => c.error.isNone))
      ∧ lookupA (backupChanges exSt exMixedBatch "wd").store "zz.json"
        = lookupA exSt.store "zz.json" :=
  ⟨(backupChanges_snapshot exSt exMixedBatch "wd").1,
   (backupChanges_snapshot exSt exMixedBatch "wd").2.1 "zz.json" (by decide)⟩

theorem mkdirAll_ok (w w' : FsWorld) (d : String) (h : mkdirAll w d = Except.ok w') :
    w' = w := by
  unfold mkdirAll at h
  by_cases hd : d ∈ w.denied
  · rw [if_pos hd] at h
    cases h
  · rw [if_neg hd] at h
    cases h
    rfl

theorem renameCore_missing (w : FsWorld) (c : Change) (ci : Bool) (sp tp tp0 : String)
    (h : lookupA w.fs sp = none) :
    renameCore w c ci sp tp tp0 = (w, { c with error := some "no such file" }, true) := by
  unfold renameCore
  rw [show osRename w sp tp = Except.error "no such file" from by simp [osRename, h]]

/-- A step whose source is missing always fails and leaves the file map
untouched (the rename itself, or the directory creation before it, is what
reports the error). -/
theorem renameStep_fail_missing (w : FsWorld) (c : Change)
    (hne : srcPath c ≠ tgtPath c) (hmiss : lookupA w.fs (srcPath c) = none) :
    (renameStep w c).1.fs = w.fs ∧ (renameStep w c).2.2 = true := by
  unfold renameStep
  simp only [hne, if_false]
  by_cases hef : eqFold (srcPath c) (tgtPath c)
  · simp only [hef, if_true]
    by_cases hsl : containsSlash c.target
    · simp only [hsl, if_true]
      cases hm : mkdirAll { fs := w.fs, denied := w.denied, clock := w.clock + 1 }
          (joinPath c.baseDir (dirname c.target)) with
      | error e => simp [hm]
      | ok w2 =>
        have hw2 := mkdirAll_ok _ _ _ hm
        subst hw2
        simp only [hm]
        rw [renameCore_missing { fs := w.fs, denied := w.denied, clock := w.clock + 1 }
          c true (srcPath c) _ _ hmiss]
        simp
    · simp only [hsl, Bool.false_eq_true, if_false]
      rw [renameCore_missing { fs := w.fs, denied := w.denied, clock := w.clock + 1 }
        c true (srcPath c) _ _ hmiss]
      simp
  · simp only [hef, Bool.false_eq_true, if_false]
    by_cases hsl : containsSlash c.target
    · simp only [hsl, if_true]
      cases hm : mkdirAll w (joinPath c.baseDir (dirname c.target)) with
      | error e => simp [hm]
      | ok w2 =>
        have hw2 := mkdirAll_ok _ _ _ hm
        subst hw2
        simp only [hm]
        rw [renameCore_missing _ _ _ _ _ _ hmiss]
        simp
    · simp only [hsl, Bool.false_eq_true, if_false]
      rw [renameCore_missing _ _ _ _ _ _ hmiss]
      simp

theorem renameGo_all_fail (w : FsWorld) (i : Nat) (errs : List Nat) (cs : List Change)
    (h : ∀ c ∈ cs, srcPath c ≠ tgtPath c ∧ lookupA w.fs (srcPath c) = none) :
    (renameGo w i errs cs).1.fs = w.fs
      ∧ ∀ c' ∈ (renameGo w i errs cs).2.1, c'.error.isSome := by
  induction cs generalizing w i errs with
  | nil => simp [renameGo]
  | cons c rest ih =>
    obtain ⟨hne, hmiss⟩ := h c (List.mem_cons_self c rest)
    have hstep := renameStep_fail_missing w c hne hmiss
    have hrest : ∀ c' ∈ rest, srcPath c' ≠ tgtPath c'
        ∧ lookupA (renameStep w c).1.fs (srcPath c') = none := by
      intro c' hc'
      rw [hstep.1]
      exact h c' (List.mem_cons_of_mem c hc')
    have hrec := ih (renameStep w c).1 (i + 1)
      (if (renameStep w c).2.2 then errs ++ [i] else errs) hrest
    constructor
    · show (renameGo (renameStep w c).1 (i + 1)
        (if (renameStep w c).2.2 then errs ++ [i] else errs) rest).1.fs = w.fs
      rw [hrec.1, hstep.1]
    · intro c' hc'
      rcases List.mem_cons.1 hc' with hh | ht
      · rcases (renameStep_shape w c).1 hstep.2 with ⟨e, he⟩
        rw [hh, he]
        rfl
      · exact hrec.2 c' ht

/-- C10.  In non-revert mode commit overwrites the backup file for the
working directory unconditionally: when every change in the batch fails,
the filesystem is left untouched, yet the stored snapshot for that working
directory is replaced by one with an empty change list — whatever undo
metadata a prior successful batch had stored there is destroyed. -/
theorem commit_overwrite_on_total_failure (st : ProcState) (conf : Config)
    (cs : List Change) (hrev : conf.revert = false)
    (hfail : ∀ c ∈ cs, srcPath c ≠ tgtPath c
      ∧ lookupA st.world.fs (srcPath c) = none) :
    (commit st conf cs).1.world.fs = st.world.fs
      ∧ lookupA (commit st conf cs).1.store (backupName conf.workingDir)
        = some [] := by
  have hall := renameGo_all_fail st.world 0 st.errs cs hfail
  have hfilter : (renameGo st.world 0 st.errs cs).2.1.filter
      (fun c => c.error.isNone) = [] := by
    rw [List.filter_eq_nil_iff]
    intro a ha
    have := hall.2 a ha
    simp only [Option.isSome_iff_ne_none] at this
    simpa [Option.isNone_iff_eq_none] using this
  constructor
  · simp only [commit, renameFn, hrev, Bool.false_eq_true, if_false,
      backupChanges]
    exact hall.1
  · simp only [commit, renameFn, hrev, Bool.false_eq_true, if_false,
      backupChanges, lookupA_setKey, backupName]
    rw [backupLoop_eq_filter, hfilter]
    simp

/-- A process state carrying undo metadata from a prior successful batch
for working directory `wd`. -/
def exPriorSt : ProcState :=
  { world := { fs := [("a", "A")], denied := [], clock := 0 },
    store := [("wd.json",
      [{ baseDir := "", source := "old", target := "newer", error := none }])],
    errs := [] }

/-- Witness for C10 at a concrete input: a batch whose only change fails
leaves the filesystem untouched but replaces the prior snapshot with an
empty one. -/
theorem commit_overwrite_on_total_failure_witness :
    (commit exPriorSt exConf exFailBatch).1.world.fs = exPriorSt.world.fs
      ∧ lookupA (commit exPriorSt exConf exFailBatch).1.store
          (backupName exConf.workingDir) = some [] :=
  commit_overwrite_on_total_failure exPriorSt exConf exFailBatch rfl (by decide)

theorem RenameTop_exec (conf : Config) (st : ProcState) (cs : List Change)
    (hex : conf.exec = true) :
    RenameTop conf st cs
      = (if (commit st conf cs).2.2 ≠ [] then some RenameError.renameFailed else none,
         (commit st conf cs).1, (commit st conf cs).2.1) := by
  unfold RenameTop
  simp [hex, filesBeforeDirs]

theorem commit_errs_eq (st : ProcState) (conf : Config) (cs : List Change) :
    (commit st conf cs).2.2 = st.errs ++ failuresSpec st.world 0 cs := by
  simp [commit, renameFn, renameGo_errs]

/-- C7.  Undo's outcomes are distinguishable by kind (in execute mode, in
a fresh process): it reports nothing-to-undo exactly when no backup is
stored for the working directory; given a stored snapshot, it reports
undo-failed exactly when the inverse commit records at least one per-item
failure; and when the inverse commit is failure-free the distinct
backup-removal outcome is reported exactly when deleting the spent backup
file fails, the undo reporting success otherwise. -/
theorem undo_taxonomy (conf : Config) (st : ProcState) (removeOk : Bool)
    (hex : conf.exec = true) (h0 : st.errs = []) :
    ((Undo conf st removeOk).1 = UndoResult.nothingToUndo
        ↔ lookupA st.store (backupName conf.workingDir) = none)
      ∧ (∀ sc, lookupA st.store (backupName conf.workingDir) = some sc →
          (((Undo conf st removeOk).1 = UndoResult.undoFailed)
              ↔ failuresSpec st.world 0 (sc.map swapChange) ≠ [])
            ∧ (failuresSpec st.world 0 (sc.map swapChange) = [] →
                (((Undo conf st removeOk).1 = UndoResult.backupRemovalFailed)
                    ↔ removeOk = false)
                  ∧ (((Undo conf st removeOk).1 = UndoResult.ok)
                    ↔ removeOk = true))) := by
  cases hb : lookupA st.store (backupName conf.workingDir) with
  | none =>
    constructor
    · simp [Undo, hb]
    · intro sc hsc
      exact Option.noConfusion hsc
  | some sc =>
    have hru : Undo conf st removeOk
        = (if removeOk = false ∧ failuresSpec st.world 0 (sc.map swapChange) = []
            then UndoResult.backupRemovalFailed
            else if failuresSpec st.world 0 (sc.map swapChange) = []
              then UndoResult.ok
              else UndoResult.undoFailed,
           (Undo conf st removeOk).2) := by
      simp only [Undo]
      rw [hb]
      simp only [filesBeforeDirs]
      rw [RenameTop_exec conf st _ hex, commit_errs_eq, h0, List.nil_append]
      by_cases hfs : failuresSpec st.world 0 (sc.map swapChange) = []
      · cases removeOk with
        | true => simp [hfs, hex]
        | false => simp [hfs, hex]
      · simp [hfs, hex]
    constructor
    · rw [hru]
      by_cases hfs : failuresSpec st.world 0 (sc.map swapChange) = []
      · cases removeOk with
        | true => simp [hfs, hb]
        | false => simp [hfs, hb]
      · simp [hfs, hb]
    · intro sc' hsc
      cases hsc
      constructor
      · rw [hru]
        by_cases hfs : failuresSpec st.world 0 (sc.map swapChange) = []
        · cases removeOk with
          | true => simp [hfs]
          | false => simp [hfs]
        · simp [hfs]
      · intro hfs
        rw [hru]
        cases removeOk with
        | true => simp [hfs]
        | false => simp [hfs]

/-- The configuration the undo path runs with: execute mode, revert set. -/
def exConfU : Config :=
  { exec := true, revert := true, includeDir := false, interactive := false,
    json := false, workingDir := "wd" }

/-- A process state holding a backup snapshot for `wd` whose inverse
commit succeeds. -/
def exUndoSt : ProcState :=
  { world := { fs := [("b", "A")], denied := [], clock := 0 },
    store := [("wd.json",
      [{ baseDir := "", source := "a", target := "b", error := none }])],
    errs := [] }

/-- Witness for C7 at a concrete input: with a stored snapshot whose
inverse commit is failure-free and a deletable backup file, Undo reports
success, and the nothing-to-undo outcome is equivalent to the absence of
the stored backup. -/
theorem undo_taxonomy_witness :
    ((Undo exConfU exUndoSt true).1 = UndoResult.nothingToUndo
        ↔ lookupA exUndoSt.store (backupName exConfU.workingDir) = none)
      ∧ ((Undo exConfU exUndoSt true).1 = UndoResult.ok ↔ true = true) := by
  refine ⟨(undo_taxonomy exConfU exUndoSt true rfl rfl).1, ?_⟩
  have h := (undo_taxonomy exConfU exUndoSt true rfl rfl).2
    [{ baseDir := "", source := "a", target := "b", error := none }] (by decide)
  exact (h.2 (by decide)).2

/-- Evaluation of the `changes` field of the marshalled output: it is
omitted (absent) whenever the change list is nil or empty, and an array
otherwise — the `omitempty` tag drops the empty non-nil slice installed by
the nil-guard. -/
theorem getOutput_changes_field (ocs : Option (List Change)) (errs : List Int)
    (wd d : String) (dr : Bool) (cf : List String) :
    lookupA (GetOutput ocs errs wd d dr cf) "changes"
      = match ocs with
        | none => none
        | some l =>
          if l = [] then none else some (JsonVal.arr (l.map changeToJson)) := by
  unfold GetOutput marshalOutputFields
  cases ocs with
  | none =>
    by_cases hcf : cf = [] <;> by_cases he : errs = [] <;>
      simp [hcf, he, lookupA]
  | some l =>
    by_cases hl : l = [] <;> by_cases hcf : cf = [] <;> by_cases he : errs = [] <;>
      simp [hl, hcf, he, lookupA]

/-- C9 counterexample.  For an empty batch the marshalled document omits
the `changes` field entirely — both for a nil slice and for the empty
non-nil slice installed by the guard — because the field carries
`omitempty` (json.go line 19); the emitted keys are only `working_dir`,
`date` and `dry_run`.  This refutes the claim that `changes` is always
present (as an empty array) in the produced document. -/
theorem getOutput_changes_omitted_counterexample :
    lookupA (GetOutput (some []) [] "wd" "2024-01-01T00:00:00Z" false []) "changes" = none
      ∧ lookupA (GetOutput none [] "wd" "2024-01-01T00:00:00Z" false []) "changes" = none
      ∧ (GetOutput (some []) [] "wd" "2024-01-01T00:00:00Z" false []).map Prod.fst
        = ["working_dir", "date", "dry_run"] := by
  refine ⟨rfl, rfl, rfl⟩

/-- C9 (amended).  The `changes` field of the produced JSON document is
never encoded as null: the nil-guard of GetOutput replaces a nil slice
before marshalling, and whenever the field is present it is an array of
change objects; however, when the batch is empty the field is omitted from
the document (by `omitempty`) rather than serialized as an empty array. -/
theorem getOutput_changes_never_null (ocs : Option (List Change)) (errs : List Int)
    (wd d : String) (dr : Bool) (cf : List String) :
    (∀ v, lookupA (GetOutput ocs errs wd d dr cf) "changes" = some v →
        ∃ l : List Change, v = JsonVal.arr (List.map changeToJson l))
      ∧ (lookupA (GetOutput ocs errs wd d dr cf) "changes" = none
          ↔ ocs = none ∨ ocs = some []) := by
  rw [getOutput_changes_field]
  constructor
  · intro v hv
    cases ocs with
    | none => simp at hv
    | some l =>
      by_cases hl : l = []
      · simp [hl] at hv
      · simp only [hl, if_false] at hv
        simp at hv
        exact ⟨l, hv.symm⟩
  · cases ocs with
    | none => simp
    | some l =>
      by_cases hl : l = []
      · simp [hl]
      · simp [hl]

/-- A concrete one-item change list. -/
def exOneChange : List Change :=
  [{ baseDir := "", source := "a", target := "b", error := none }]

/-- Witness for C9's amended statement at concrete inputs: a one-change
batch emits an array value, and the empty batch omits the field. -/
theorem getOutput_changes_never_null_witness :
    (∃ l : List Change, JsonVal.arr (List.map changeToJson exOneChange)
        = JsonVal.arr (List.map changeToJson l))
      ∧ (lookupA (GetOutput (some []) [] "wd" "d" true ["x"]) "changes" = none
          ↔ some ([] : List Change) = none ∨ some ([] : List Change) = some []) := by
  constructor
  · exact (getOutput_changes_never_null (some exOneChange) [] "wd" "d" true []).1
      (JsonVal.arr (List.map changeToJson exOneChange)) (by rfl)
  · exact (getOutput_changes_never_null (some []) [] "wd" "d" true ["x"]).2

/-! ## Round-trip machinery (C1): closed form of a conflict-free commit -/

theorem eqFold_refl (a : String) : eqFold a a = true := by
  simp [eqFold]

theorem eqFold_symm (a b : String) : eqFold a b = eqFold b a := by
  unfold eqFold
  by_cases h : a.data.map (fun c => foldNat c.toNat) = b.data.map (fun c => foldNat c.toNat)
  · simp [h]
  · have h' : ¬b.data.map (fun c => foldNat c.toNat) = a.data.map (fun c => foldNat c.toNat) :=
      fun he => h he.symm
    simp [h, h']

theorem eqFold_false_ne (a b : String) (h : eqFold a b = false) : a ≠ b := by
  intro he
  subst he
  rw [eqFold_refl a] at h
  cases h

/-- The net effect of a conflict-free commit on one path: a path that is
some change's target receives that change's source content, a path that is
some change's source is vacated, and every other path is untouched. -/
def netLookup (fs : List (String × String)) (cs : List Change) (p : String) :
    Option String :=
  match cs.find? (fun c => tgtPath c == p) with
  | some c => lookupA fs (srcPath c)
  | none =>
    if cs.any (fun c => srcPath c == p) then none else lookupA fs p

theorem find?_nodup_map {α β : Type} [DecidableEq β] (l : List α) (f : α → β) (a : α)
    (hnd : (l.map f).Nodup) (ha : a ∈ l) :
    l.find? (fun x => f x == f a) = some a := by
  induction l with
  | nil => simp at ha
  | cons x rest ih =>
    simp only [List.map_cons, List.nodup_cons] at hnd
    rcases List.mem_cons.1 ha with hax | hax
    · subst hax
      simp [List.find?]
    · have hne : f x ≠ f a := by
        intro he
        exact hnd.1 (he ▸ List.mem_map_of_mem f hax)
      rw [List.find?]
      have : (f x == f a) = false := by
        simpa using hne
      rw [this]
      exact ih hnd.2 hax

/-- The world after a successful direct rename: the source entry moved
onto the target, denied set and clock unchanged. -/
def movedWorld (w : FsWorld) (sp tp v : String) : FsWorld :=
  { fs := setKey (eraseKey w.fs sp) tp v, denied := w.denied, clock := w.clock }

/-- A direct (no case-fold) successful step: the change comes back
unmarked, the world keeps its denied set and clock, and the file map moves
the source entry onto the target. -/
theorem renameStep_direct_success (w : FsWorld) (c : Change) (v : String)
    (hden : w.denied = [])
    (hef : eqFold (srcPath c) (tgtPath c) = false)
    (hv : lookupA w.fs (srcPath c) = some v) :
    renameStep w c
      = (movedWorld w (srcPath c) (tgtPath c) v, c, false) := by
  show renameStep w c
      = ({ fs := setKey (eraseKey w.fs (srcPath c)) (tgtPath c) v,
           denied := w.denied, clock := w.clock }, c, false)
  have hne : srcPath c ≠ tgtPath c := eqFold_false_ne _ _ hef
  unfold renameStep
  simp only [hne, if_false, hef, Bool.false_eq_true]
  have hcore : renameCore w c false (srcPath c) (tgtPath c) (tgtPath c)
      = ({ fs := setKey (eraseKey w.fs (srcPath c)) (tgtPath c) v,
           denied := w.denied, clock := w.clock }, c, false) := by
    unfold renameCore
    rw [show osRename w (srcPath c) (tgtPath c)
        = Except.ok
          { fs := setKey (eraseKey w.fs (srcPath c)) (tgtPath c) v,
            denied := w.denied, clock := w.clock } from by
      simp [osRename, hv, hden]]
    rfl
  by_cases hsl : containsSlash c.target
  · simp only [hsl, if_true]
    rw [show mkdirAll w (joinPath c.baseDir (dirname c.target)) = Except.ok w from by
      simp [mkdirAll, hden]]
    exact hcore
  · simp only [hsl, Bool.false_eq_true, if_false]
    exact hcore

/-- Closed form of the rename loop on a conflict-free batch: distinct
sources, distinct targets, no source equal to any target, all sources
present, no case-fold pairs, nothing denied.  Every step succeeds, the
changes and the error list come back unchanged, and the final file map is
described pointwise by `netLookup`. -/
theorem renameGo_closed (cs : List Change) :
    ∀ (w : FsWorld) (i : Nat) (errs : List Nat),
      w.denied = [] →
      (cs.map srcPath).Nodup →
      (cs.map tgtPath).Nodup →
      (∀ c ∈ cs, ∀ c' ∈ cs, srcPath c ≠ tgtPath c') →
      (∀ c ∈ cs, (lookupA w.fs (srcPath c)).isSome) →
      (∀ c ∈ cs, eqFold (srcPath c) (tgtPath c) = false) →
      (renameGo w i errs cs).2.1 = cs
        ∧ (renameGo w i errs cs).2.2 = errs
        ∧ (renameGo w i errs cs).1.denied = w.denied
        ∧ ∀ p, lookupA (renameGo w i errs cs).1.fs p = netLookup w.fs cs p := by
  induction cs with
  | nil =>
    intro w i errs _ _ _ _ _ _
    refine ⟨rfl, rfl, rfl, ?_⟩
    intro p
    simp [renameGo, netLookup, List.find?]
  | cons c rest ih =>
    intro w i errs hden hsn htn hdj hex hef
    obtain ⟨v, hv⟩ :=
      Option.isSome_iff_exists.1 (hex c (List.mem_cons_self c rest))
    have hstep := renameStep_direct_success w c v hden
      (hef c (List.mem_cons_self c rest)) hv
    have hsn' : (rest.map srcPath).Nodup ∧ srcPath c ∉ rest.map srcPath := by
      have := hsn
      simp only [List.map_cons, List.nodup_cons] at this
      exact ⟨this.2, this.1⟩
    have htn' : (rest.map tgtPath).Nodup ∧ tgtPath c ∉ rest.map tgtPath := by
      have := htn
      simp only [List.map_cons, List.nodup_cons] at this
      exact ⟨this.2, this.1⟩
    have hw1look : ∀ q,
        lookupA (movedWorld w (srcPath c) (tgtPath c) v).fs q
          = if q = tgtPath c then some v
            else if q = srcPath c then none else lookupA w.fs q := by
      intro q
      show lookupA (setKey (eraseKey w.fs (srcPath c)) (tgtPath c) v) q = _
      rw [lookupA_setKey, lookupA_eraseKey]
    have hdj' : ∀ a ∈ rest, ∀ b ∈ rest, srcPath a ≠ tgtPath b := fun a ha b hb =>
      hdj a (List.mem_cons_of_mem c ha) b (List.mem_cons_of_mem c hb)
    have hsrc_ne : ∀ a ∈ rest, srcPath a ≠ srcPath c := by
      intro a ha he
      exact hsn'.2 (he ▸ List.mem_map_of_mem srcPath ha)
    have htgt_ne : ∀ a ∈ rest, tgtPath a ≠ tgtPath c := by
      intro a ha he
      exact htn'.2 (he ▸ List.mem_map_of_mem tgtPath ha)
    have hex' : ∀ a ∈ rest,
        (lookupA (movedWorld w (srcPath c) (tgtPath c) v).fs (srcPath a)).isSome := by
      intro a ha
      rw [hw1look]
      have h1 : srcPath a ≠ tgtPath c :=
        hdj a (List.mem_cons_of_mem c ha) c (List.mem_cons_self c rest)
      have h2 : srcPath a ≠ srcPath c := hsrc_ne a ha
      simp only [h1, h2, if_false]
      exact hex a (List.mem_cons_of_mem c ha)
    have hef' : ∀ a ∈ rest, eqFold (srcPath a) (tgtPath a) = false := fun a ha =>
      hef a (List.mem_cons_of_mem c ha)
    have hrec := ih (movedWorld w (srcPath c) (tgtPath c) v) (i + 1) errs
      hden hsn'.1 htn'.1 hdj' hex' hef'
    have hgo : renameGo w i errs (c :: rest)
        = ((renameGo (movedWorld w (srcPath c) (tgtPath c) v) (i + 1) errs rest).1,
           c :: (renameGo (movedWorld w (srcPath c) (tgtPath c) v) (i + 1) errs rest).2.1,
           (renameGo (movedWorld w (srcPath c) (tgtPath c) v) (i + 1) errs rest).2.2) := by
      rw [renameGo, hstep]
      rfl
    rw [hgo]
    refine ⟨by rw [hrec.1], hrec.2.1, hrec.2.2.1, ?_⟩
    intro p
    rw [hrec.2.2.2 p]
    by_cases hp : p = tgtPath c
    · have hfindr : rest.find? (fun c' => tgtPath c' == p) = none := by
        rw [List.find?_eq_none]
        intro a ha
        simp only [beq_iff_eq]
        rw [hp]
        exact htgt_ne a ha
      have hanyr : rest.any (fun c' => srcPath c' == p) = false := by
        rw [List.any_eq_false]
        intro a ha
        simp only [beq_iff_eq]
        rw [hp]
        exact hdj a (List.mem_cons_of_mem c ha) c (List.mem_cons_self c rest)
      have hfindc : (c :: rest).find? (fun c' => tgtPath c' == p) = some c := by
        rw [List.find?_cons_of_pos]
        simp [hp]
      rw [netLookup, hfindr, hanyr, netLookup, hfindc]
      simp only [Bool.false_eq_true, if_false]
      rw [hw1look, if_pos hp, hv]
    · have hfindc : (c :: rest).find? (fun c' => tgtPath c' == p)
          = rest.find? (fun c' => tgtPath c' == p) := by
        rw [List.find?_cons_of_neg]
        simp only [beq_iff_eq]
        exact fun he => hp he.symm
      cases hfind : rest.find? (fun c' => tgtPath c' == p) with
      | some c2 =>
        have hc2 : c2 ∈ rest := List.mem_of_find?_eq_some hfind
        rw [netLookup, hfind, netLookup, hfindc, hfind]
        have h1 : srcPath c2 ≠ tgtPath c :=
          hdj c2 (List.mem_cons_of_mem c hc2) c (List.mem_cons_self c rest)
        have h2 : srcPath c2 ≠ srcPath c := hsrc_ne c2 hc2
        show lookupA (movedWorld w (srcPath c) (tgtPath c) v).fs (srcPath c2)
          = lookupA w.fs (srcPath c2)
        rw [hw1look]
        simp [h1, h2]
      | none =>
        rw [netLookup, hfind, netLookup, hfindc, hfind]
        show (if (rest.any fun c' => srcPath c' == p) = true then none
            else lookupA (movedWorld w (srcPath c) (tgtPath c) v).fs p)
          = if ((c :: rest).any fun c' => srcPath c' == p) = true then none
            else lookupA w.fs p
        by_cases hps : p = srcPath c
        · have hanyr : rest.any (fun c' => srcPath c' == p) = false := by
            rw [List.any_eq_false]
            intro a ha
            simp only [beq_iff_eq]
            rw [hps]
            exact hsrc_ne a ha
          have hanyc : (c :: rest).any (fun c' => srcPath c' == p) = true := by
            simp [List.any_cons, hps]
          rw [hanyr, hanyc]
          simp only [Bool.false_eq_true, if_false, if_true]
          rw [hw1look, if_neg hp, if_pos hps]
        · have hanyc : (c :: rest).any (fun c' => srcPath c' == p)
              = rest.any (fun c' => srcPath c' == p) := by
            simp only [List.any_cons, Bool.or_eq_true, beq_iff_eq]
            have : ¬srcPath c = p := fun he => hps he.symm
            simp [this]
          rw [hanyc]
          cases hany : rest.any (fun c' => srcPath c' == p) with
          | true => simp
          | false =>
            simp only [Bool.false_eq_true, if_false]
            rw [hw1look, if_neg hp, if_neg (fun he => hps he)]

theorem commit_clean (st : ProcState) (conf : Config) (cs : List Change)
    (h0 : st.errs = []) (hrev : conf.revert = false)
    (hcs1 : (renameGo st.world 0 st.errs cs).2.1 = cs)
    (hcs2 : (renameGo st.world 0 st.errs cs).2.2 = st.errs) :
    commit st conf cs
      = ({ world := (renameGo st.world 0 st.errs cs).1,
           store := setKey st.store (backupName conf.workingDir)
             (backupLoop cs cs.length),
           errs := [] }, cs, []) := by
  simp only [commit, renameFn, backupChanges]
  rw [hcs1, hcs2, h0, hrev]
  simp [backupName]

theorem commit_clean_revert (st : ProcState) (conf : Config) (cs : List Change)
    (h0 : st.errs = []) (hrev : conf.revert = true)
    (hcs1 : (renameGo st.world 0 st.errs cs).2.1 = cs)
    (hcs2 : (renameGo st.world 0 st.errs cs).2.2 = st.errs) :
    commit st conf cs
      = ({ world := (renameGo st.world 0 st.errs cs).1,
           store := st.store,
           errs := [] }, cs, []) := by
  simp only [commit, renameFn, backupChanges]
  rw [hcs1, hcs2, h0, hrev]
  simp

/-- Undoing a conflict-free commit restores every path: the netLookup of
the swapped batch over the committed file map is the original lookup. -/
theorem netLookup_swap (fs F : List (String × String)) (cs : List Change)
    (hF : ∀ p, lookupA F p = netLookup fs cs p)
    (htn : (cs.map tgtPath).Nodup)
    (htgt : ∀ c ∈ cs, lookupA fs (tgtPath c) = none) :
    ∀ p, netLookup F (cs.map swapChange) p = lookupA fs p := by
  intro p
  cases hfind : cs.find? (fun c => srcPath c == p) with
  | some a =>
    have ha : a ∈ cs := List.mem_of_find?_eq_some hfind
    have hpa : srcPath a = p := by
      have := List.find?_some hfind
      simpa using this
    have hfind2 : (cs.map swapChange).find? (fun c => tgtPath c == p)
        = some (swapChange a) := by
      rw [List.find?_map]
      show (cs.find? ((fun c => tgtPath c == p) ∘ swapChange)).map swapChange
        = some (swapChange a)
      have hcomp : ((fun c => tgtPath c == p) ∘ swapChange)
          = (fun c => srcPath c == p) := rfl
      rw [hcomp, hfind]
      rfl
    rw [netLookup, hfind2]
    show lookupA F (tgtPath a) = lookupA fs p
    rw [hF]
    unfold netLookup
    rw [find?_nodup_map cs tgtPath a htn ha]
    show lookupA fs (srcPath a) = lookupA fs p
    rw [hpa]
  | none =>
    have hfind2 : (cs.map swapChange).find? (fun c => tgtPath c == p) = none := by
      rw [List.find?_map]
      show (cs.find? ((fun c => tgtPath c == p) ∘ swapChange)).map swapChange = none
      have hcomp : ((fun c => tgtPath c == p) ∘ swapChange)
          = (fun c => srcPath c == p) := rfl
      rw [hcomp, hfind]
      rfl
    rw [netLookup, hfind2]
    show (if ((cs.map swapChange).any fun c => srcPath c == p) = true then none
        else lookupA F p) = lookupA fs p
    have hany : ((cs.map swapChange).any fun c => srcPath c == p)
        = cs.any (fun c => tgtPath c == p) := by
      rw [List.any_map]
      rfl
    rw [hany]
    cases hta : cs.any (fun c => tgtPath c == p) with
    | true =>
      simp only [if_true]
      obtain ⟨a, ha, hpa⟩ := List.any_eq_true.1 hta
      have hpa' : tgtPath a = p := by simpa using hpa
      rw [← hpa']
      exact (htgt a ha).symm
    | false =>
      simp only [Bool.false_eq_true, if_false]
      rw [hF]
      have hf3 : cs.find? (fun c => tgtPath c == p) = none := by
        rw [List.find?_eq_none]
        intro a ha'
        have := List.any_eq_false.1 hta a ha'
        simpa using this
      have ha3 : cs.any (fun c => srcPath c == p) = false := by
        rw [List.any_eq_false]
        intro a ha'
        have := List.find?_eq_none.1 hfind a ha'
        simpa using this
      rw [netLookup, hf3, ha3]
      show (if false = true then none else lookupA fs p) = lookupA fs p
      simp

/-- C1 (amended).  For a conflict-free ChangeSet — distinct joined
sources, distinct joined targets, no source equal to any target, all
sources present on disk, no target present beforehand, no case-fold pairs,
nothing write-denied, fresh error accumulator — committing through the
Rename pipeline succeeds with no errored item, and running Undo for the
same working directory (which loads the persisted snapshot, swaps Source
and Target of every recorded change, and re-commits) restores the file map
pointwise to its pre-commit state.  Without the disjointness hypotheses
the round trip fails on the code, see the counterexample. -/
theorem rename_undo_roundtrip (st : ProcState) (confF confU : Config)
    (cs : List Change) (removeOk : Bool)
    (h0 : st.errs = [])
    (hden : st.world.denied = [])
    (hFex : confF.exec = true) (hFrev : confF.revert = false)
    (hUex : confU.exec = true) (hUrev : confU.revert = true)
    (hwd : confU.workingDir = confF.workingDir)
    (herr : ∀ c ∈ cs, c.error = none)
    (hsn : (cs.map srcPath).Nodup)
    (htn : (cs.map tgtPath).Nodup)
    (hdj : ∀ c ∈ cs, ∀ c' ∈ cs, srcPath c ≠ tgtPath c')
    (hex : ∀ c ∈ cs, (lookupA st.world.fs (srcPath c)).isSome)
    (hef : ∀ c ∈ cs, eqFold (srcPath c) (tgtPath c) = false)
    (htgt : ∀ c ∈ cs, lookupA st.world.fs (tgtPath c) = none) :
    (RenameTop confF st cs).1 = none
      ∧ ∀ p,
          lookupA (Undo confU (RenameTop confF st cs).2.1 removeOk).2.world.fs p
            = lookupA st.world.fs p := by
  have hfw := renameGo_closed cs st.world 0 st.errs hden hsn htn hdj hex hef
  have hb : backupLoop cs cs.length = cs := by
    rw [backupLoop_eq_filter]
    rw [List.filter_eq_self]
    intro a ha
    simp [herr a ha]
  have hcommitF := commit_clean st confF cs h0 hFrev hfw.1 hfw.2.1
  have hRT : RenameTop confF st cs
      = (none,
         { world := (renameGo st.world 0 st.errs cs).1,
           store := setKey st.store (backupName confF.workingDir)
             (backupLoop cs cs.length),
           errs := [] }, cs) := by
    rw [RenameTop_exec confF st cs hFex, hcommitF]
    simp
  -- facts about the committed world
  have hWden : (renameGo st.world 0 st.errs cs).1.denied = [] := by
    rw [hfw.2.2.1, hden]
  have hWlook := hfw.2.2.2
  -- hypotheses for the swapped batch
  have hmap_src : (cs.map swapChange).map srcPath = cs.map tgtPath := by
    rw [List.map_map]
    rfl
  have hmap_tgt : (cs.map swapChange).map tgtPath = cs.map srcPath := by
    rw [List.map_map]
    rfl
  have hsn2 : ((cs.map swapChange).map srcPath).Nodup := by
    rw [hmap_src]
    exact htn
  have htn2 : ((cs.map swapChange).map tgtPath).Nodup := by
    rw [hmap_tgt]
    exact hsn
  have hdj2 : ∀ a ∈ cs.map swapChange, ∀ b ∈ cs.map swapChange,
      srcPath a ≠ tgtPath b := by
    intro a ha b hb
    obtain ⟨a0, ha0, rfl⟩ := List.mem_map.1 ha
    obtain ⟨b0, hb0, rfl⟩ := List.mem_map.1 hb
    show tgtPath a0 ≠ srcPath b0
    exact fun he => hdj b0 hb0 a0 ha0 he.symm
  have hWtgt : ∀ a ∈ cs, lookupA (renameGo st.world 0 st.errs cs).1.fs (tgtPath a)
      = lookupA st.world.fs (srcPath a) := by
    intro a ha
    rw [hWlook]
    unfold netLookup
    rw [find?_nodup_map cs tgtPath a htn ha]
  have hex2 : ∀ a ∈ cs.map swapChange,
      (lookupA (renameGo st.world 0 st.errs cs).1.fs (srcPath a)).isSome := by
    intro a ha
    obtain ⟨a0, ha0, rfl⟩ := List.mem_map.1 ha
    show (lookupA (renameGo st.world 0 st.errs cs).1.fs (tgtPath a0)).isSome
    rw [hWtgt a0 ha0]
    exact hex a0 ha0
  have hef2 : ∀ a ∈ cs.map swapChange,
      eqFold (srcPath a) (tgtPath a) = false := by
    intro a ha
    obtain ⟨a0, ha0, rfl⟩ := List.mem_map.1 ha
    show eqFold (tgtPath a0) (srcPath a0) = false
    rw [eqFold_symm]
    exact hef a0 ha0
  have hbw := renameGo_closed (cs.map swapChange)
    (renameGo st.world 0 st.errs cs).1 0 [] hWden hsn2 htn2 hdj2 hex2 hef2
  refine ⟨by rw [hRT], ?_⟩
  intro p
  rw [hRT]
  -- unfold Undo on the forward state
  have hkey : backupName confU.workingDir = backupName confF.workingDir := by
    rw [hwd]
  have hlookup : lookupA
      (setKey st.store (backupName confF.workingDir) (backupLoop cs cs.length))
      (backupName confU.workingDir) = some cs := by
    rw [hkey, lookupA_setKey, if_pos rfl, hb]
  have hstF0 :
      ProcState.errs
        { world := (renameGo st.world 0 st.errs cs).1,
          store := setKey st.store (backupName confF.workingDir)
            (backupLoop cs cs.length),
          errs := [] } = [] := rfl
  have hcommitU := commit_clean_revert
    { world := (renameGo st.world 0 st.errs cs).1,
      store := setKey st.store (backupName confF.workingDir)
        (backupLoop cs cs.length),
      errs := [] } confU (cs.map swapChange) hstF0 hUrev hbw.1 hbw.2.1
  have hRTU := RenameTop_exec confU
    { world := (renameGo st.world 0 st.errs cs).1,
      store := setKey st.store (backupName confF.workingDir)
        (backupLoop cs cs.length),
      errs := [] } (cs.map swapChange) hUex
  rw [hcommitU] at hRTU
  simp only [Undo]
  rw [hlookup]
  simp only [filesBeforeDirs]
  rw [hRTU]
  simp only [ne_eq, not_true_eq_false, if_false, if_neg]
  have hfinal : ∀ q,
      lookupA (renameGo (renameGo st.world 0 st.errs cs).1 0 []
          (cs.map swapChange)).1.fs q
        = lookupA st.world.fs q := by
    intro q
    rw [hbw.2.2.2 q]
    exact netLookup_swap st.world.fs (renameGo st.world 0 st.errs cs).1.fs cs
      hWlook htn htgt q
  cases removeOk with
  | true =>
    rw [hUex]
    simp only [if_true]
    exact hfinal p
  | false =>
    rw [hUex]
    simp only [Bool.false_eq_true, if_false, if_true]
    exact hfinal p

/-- The initial state of the round-trip counterexample: files `a` and `c`
on disk, nothing denied, fresh process. -/
def exRtSt : ProcState :=
  { world := { fs := [("a", "A"), ("c", "C")], denied := [], clock := 0 },
    store := [], errs := [] }

/-- A change set in which one change's target equals another change's
source: rename `a` to `b`, and `c` to `a`. -/
def exRtBatch : List Change :=
  [{ baseDir := "", source := "a", target := "b", error := none },
   { baseDir := "", source := "c", target := "a", error := none }]

/-- C1 counterexample.  The change set `[a → b, c → a]` commits with no
errored item, and Undo (which swaps every pair but keeps the list order)
also reports success — yet the filesystem is not restored: the content of
`c` is destroyed (the inverse rename `b → a` overwrites it) and the final
tree is `[c ↦ A]` instead of `[a ↦ A, c ↦ C]`.  This refutes the claim as
stated, for a ChangeSet with no errored items whose targets overlap its
sources. -/
theorem rename_undo_roundtrip_counterexample :
    (RenameTop exConf exRtSt exRtBatch).1 = none
      ∧ (Undo exConfU (RenameTop exConf exRtSt exRtBatch).2.1 true).1
        = UndoResult.ok
      ∧ lookupA exRtSt.world.fs "a" = some "A"
      ∧ lookupA
          (Undo exConfU (RenameTop exConf exRtSt exRtBatch).2.1 true).2.world.fs
          "a" = none
      ∧ lookupA exRtSt.world.fs "c" = some "C"
      ∧ lookupA
          (Undo exConfU (RenameTop exConf exRtSt exRtBatch).2.1 true).2.world.fs
          "c" = some "A" := by
  refine ⟨by decide, by decide, by decide, by decide, by decide, by decide⟩

/-- Witness for C1's amended statement at a concrete input: committing
`[a → b]` and undoing restores the lookup of every path probed. -/
theorem rename_undo_roundtrip_witness :
    (RenameTop exConf exSt exOkBatch).1 = none
      ∧ lookupA (Undo exConfU (RenameTop exConf exSt exOkBatch).2.1 true).2.world.fs
          "a" = lookupA exSt.world.fs "a"
      ∧ lookupA (Undo exConfU (RenameTop exConf exSt exOkBatch).2.1 true).2.world.fs
          "b" = lookupA exSt.world.fs "b" := by
  have h := rename_undo_roundtrip exSt exConf exConfU exOkBatch true
    rfl rfl rfl rfl rfl rfl rfl
    (by decide) (by decide) (by decide) (by decide) (by decide) (by decide)
    (by decide)
  exact ⟨h.1, h.2 "a", h.2 "b"⟩

/-! ## Walk lemmas (C8) -/

theorem keys_eraseKey_sub {α : Type} (l : List (String × α)) (k0 k : String)
    (h : k ∈ (eraseKey l k0).map Prod.fst) : k ∈ l.map Prod.fst := by
  induction l with
  | nil => simp [eraseKey] at h
  | cons kv rest ihl =>
    obtain ⟨k1, v1⟩ := kv
    by_cases hk : k1 = k0
    · rw [eraseKey, if_pos hk] at h
      exact List.mem_cons_of_mem _ (ihl h)
    · rw [eraseKey, if_neg hk] at h
      rw [List.map_cons] at h
      rcases List.mem_cons.1 h with hh | ht
      · simp [hh]
      · exact List.mem_cons_of_mem _ (ihl ht)

theorem keys_setKey {α : Type} (l : List (String × α)) (k0 : String) (v : α)
    (k : String) (h : k ∈ (setKey l k0 v).map Prod.fst) :
    k = k0 ∨ k ∈ l.map Prod.fst := by
  rw [setKey, List.map_cons] at h
  rcases List.mem_cons.1 h with hh | ht
  · exact Or.inl hh
  · exact Or.inr (keys_eraseKey_sub l k0 k ht)

theorem keys_foldl_setKey (items : List (String × List Entry)) :
    ∀ (acc : List (String × List Entry)) (k : String),
      k ∈ ((items.foldl (fun acc kv => setKey acc kv.1 kv.2) acc).map Prod.fst) →
      k ∈ acc.map Prod.fst ∨ ∃ kv ∈ items, k = kv.1 := by
  induction items with
  | nil =>
    intro acc k h
    exact Or.inl (by simpa using h)
  | cons kv rest ihl =>
    intro acc k h
    rw [List.foldl_cons] at h
    rcases ihl (setKey acc kv.1 kv.2) k h with h1 | h2
    · rcases keys_setKey acc kv.1 kv.2 k h1 with hh | ht
      · exact Or.inr ⟨kv, List.mem_cons_self kv rest, hh⟩
      · exact Or.inl ht
    · obtain ⟨kv', hkv', hk⟩ := h2
      exact Or.inr ⟨kv', List.mem_cons_of_mem kv hkv', hk⟩

theorem keys_foldl_expand (fsys : List (String × List Entry)) (dir : String)
    (subs : List Entry) :
    ∀ (acc : List (String × List Entry)) (k : String),
      k ∈ ((subs.foldl
          (fun acc e => setKey acc (joinPath dir e.name)
            (readDir fsys (joinPath dir e.name))) acc).map Prod.fst) →
      k ∈ acc.map Prod.fst ∨ ∃ e ∈ subs, k = joinPath dir e.name := by
  induction subs with
  | nil =>
    intro acc k h
    exact Or.inl (by simpa using h)
  | cons e rest ihl =>
    intro acc k h
    rw [List.foldl_cons] at h
    rcases ihl _ k h with h1 | h2
    · rcases keys_setKey acc (joinPath dir e.name) _ k h1 with hh | ht
      · exact Or.inr ⟨e, List.mem_cons_self e rest, hh⟩
      · exact Or.inl ht
    · obtain ⟨e', he', hk⟩ := h2
      exact Or.inr ⟨e', List.mem_cons_of_mem e he', hk⟩

theorem expandPass_visited_nodup (fsys : List (String × List Entry))
    (ihd : Bool) :
    ∀ (paths : List (String × List Entry)) (visited : List String)
      (level : List (String × List Entry)),
      visited.Nodup → (expandPass fsys ihd paths visited level).2.Nodup := by
  intro paths
  induction paths with
  | nil =>
    intro visited level h
    simpa [expandPass] using h
  | cons kv rest ihl =>
    intro visited level h
    obtain ⟨dir, contents⟩ := kv
    by_cases hd : dir ∈ visited
    · rw [expandPass, if_pos hd]
      exact ihl visited level h
    · rw [expandPass, if_neg hd]
      apply ihl
      simp [List.nodup_append, h, hd]

theorem expandPass_level_keys (fsys : List (String × List Entry)) (ihd : Bool) :
    ∀ (paths : List (String × List Entry)) (visited : List String)
      (level : List (String × List Entry)) (k : String),
      k ∈ (expandPass fsys ihd paths visited level).1.map Prod.fst →
      k ∈ level.map Prod.fst
        ∨ ∃ d es e, (d, es) ∈ paths ∧ e ∈ es ∧ e.isDir = true
            ∧ k = joinPath d e.name := by
  intro paths
  induction paths with
  | nil =>
    intro visited level k h
    exact Or.inl (by simpa [expandPass] using h)
  | cons kv rest ihl =>
    intro visited level k h
    obtain ⟨dir, contents⟩ := kv
    by_cases hd : dir ∈ visited
    · rw [expandPass, if_pos hd] at h
      rcases ihl visited level k h with h1 | ⟨d, es, e, hm, he, hdir, hk⟩
      · exact Or.inl h1
      · exact Or.inr ⟨d, es, e, List.mem_cons_of_mem _ hm, he, hdir, hk⟩
    · rw [expandPass, if_neg hd] at h
      rcases ihl (visited ++ [dir]) _ k h with h1 | ⟨d, es, e, hm, he, hdir, hk⟩
      · rcases keys_foldl_expand fsys dir _ level k h1 with h2 | ⟨e, he, hk⟩
        · exact Or.inl h2
        · have he1 : e ∈ (if ihd then contents else removeHidden contents) := by
            have := List.mem_of_mem_filter he
            exact this
          have he2 : e ∈ contents := by
            by_cases hih : ihd
            · rw [if_pos hih] at he1
              exact he1
            · rw [if_neg hih] at he1
              exact List.mem_of_mem_filter he1
          have hedir : e.isDir = true := by
            have := List.of_mem_filter he
            simpa using this
          exact Or.inr ⟨dir, contents, e,
            List.mem_cons_self _ rest, he2, hedir, hk⟩
      · exact Or.inr ⟨d, es, e, List.mem_cons_of_mem _ hm, he, hdir, hk⟩

theorem walkAux_visited_nodup (fsys : List (String × List Entry)) (ihd : Bool)
    (maxD : Int) :
    ∀ (fuel : Nat) (paths : List (String × List Entry)) (visited : List String)
      (depth : Nat), visited.Nodup →
      (walkAux fsys ihd maxD fuel paths visited depth).2.2.Nodup := by
  intro fuel
  induction fuel with
  | zero =>
    intro paths visited depth h
    simpa [walkAux] using h
  | succ f ihf =>
    intro paths visited depth h
    rw [walkAux]
    have hnd := expandPass_visited_nodup fsys ihd paths visited [] h
    by_cases hl : (expandPass fsys ihd paths visited []).1 = []
    · rw [if_pos hl]
      exact hnd
    · rw [if_neg hl]
      by_cases hstop : maxD > 0 ∧ ((depth + 1 : Nat) : Int) = maxD
      · rw [if_pos hstop]
        exact hnd
      · rw [if_neg hstop]
        exact ihf _ _ _ hnd

theorem walkAux_depth_le (fsys : List (String × List Entry)) (ihd : Bool)
    (maxD : Int) (hpos : 0 < maxD) :
    ∀ (fuel : Nat) (paths : List (String × List Entry)) (visited : List String)
      (depth : Nat), (depth : Int) < maxD →
      ((walkAux fsys ihd maxD fuel paths visited depth).2.1 : Int) ≤ maxD := by
  intro fuel
  induction fuel with
  | zero =>
    intro paths visited depth hlt
    rw [walkAux]
    exact le_of_lt hlt
  | succ f ihf =>
    intro paths visited depth hlt
    rw [walkAux]
    by_cases hl : (expandPass fsys ihd paths visited []).1 = []
    · rw [if_pos hl]
      exact le_of_lt hlt
    · rw [if_neg hl]
      by_cases hstop : maxD > 0 ∧ ((depth + 1 : Nat) : Int) = maxD
      · rw [if_pos hstop]
        exact le_of_eq hstop.2
      · rw [if_neg hstop]
        apply ihf
        have h1 : ((depth + 1 : Nat) : Int) ≤ maxD := by
          push_cast
          omega
        have h2 : ((depth + 1 : Nat) : Int) ≠ maxD := by
          intro he
          exact hstop ⟨hpos, he⟩
        omega

theorem walkAux_one_level (fsys : List (String × List Entry)) (ihd : Bool)
    (n : Nat) (paths : List (String × List Entry)) :
    (walkAux fsys ihd 1 (n + 1) paths [] 0).1
      = if (expandPass fsys ihd paths [] []).1 = [] then paths
        else mergeLevel paths (expandPass fsys ihd paths [] []).1 := by
  rw [walkAux]
  by_cases hl : (expandPass fsys ihd paths [] []).1 = []
  · rw [if_pos hl, if_pos hl]
  · rw [if_neg hl, if_neg hl]
    rw [if_pos (by norm_num : (1 : Int) > 0 ∧ ((0 + 1 : Nat) : Int) = 1)]

/-- C8.  The walk expands the path set level by level: with a positive
`maxDepth` the number of expanded levels never exceeds `maxDepth`; the
visited set records each directory at most once; and with `maxDepth = 1`
every key of the resulting path set is either an original key or the join
of an original directory with one of its direct subdirectory entries — the
contents of a directory two or more levels down are never loaded. -/
theorem walk_depth_bound (fsys paths : List (String × List Entry))
    (maxD : Int) (ihd : Bool) :
    (0 < maxD → ((walkDepth fsys paths maxD ihd : Int) ≤ maxD))
      ∧ (walkVisited fsys paths maxD ihd).Nodup
      ∧ (∀ k, k ∈ (walk fsys paths 1 ihd).map Prod.fst →
          k ∈ paths.map Prod.fst
            ∨ ∃ d es e, (d, es) ∈ paths ∧ e ∈ es ∧ e.isDir = true
                ∧ k = joinPath d e.name) := by
  refine ⟨?_, ?_, ?_⟩
  · intro hpos
    exact walkAux_depth_le fsys ihd maxD hpos (walkFuel fsys paths) paths [] 0
      (by exact_mod_cast hpos)
  · exact walkAux_visited_nodup fsys ihd maxD (walkFuel fsys paths) paths [] 0
      List.nodup_nil
  · intro k hk
    obtain ⟨n, hn⟩ : ∃ n, walkFuel fsys paths = n + 1 := ⟨_, rfl⟩
    rw [walk, hn, walkAux_one_level] at hk
    by_cases hl : (expandPass fsys ihd paths [] []).1 = []
    · rw [if_pos hl] at hk
      exact Or.inl hk
    · rw [if_neg hl] at hk
      rw [mergeLevel] at hk
      rcases keys_foldl_setKey _ paths k hk with h1 | ⟨kv, hkv, hkeq⟩
      · exact Or.inl h1
      · have hkv' : kv.1 ∈ (expandPass fsys ihd paths [] []).1.map Prod.fst :=
          List.mem_map_of_mem Prod.fst hkv
        rcases expandPass_level_keys fsys ihd paths [] [] kv.1 hkv' with h2 | h3
        · simp at h2
        · obtain ⟨d, es, e, hm, he, hdir, hkk⟩ := h3
          exact Or.inr ⟨d, es, e, hm, he, hdir, hkeq.trans hkk⟩

/-- A three-level directory structure: the root holds `sub` (a directory)
and `f`; `sub` holds `deep` (a directory); `deep` holds `x`. -/
def exFsys : List (String × List Entry) :=
  [(".", [{ name := "sub", isDir := true }, { name := "f", isDir := false }]),
   ("./sub", [{ name := "deep", isDir := true }]),
   ("./sub/deep", [{ name := "x", isDir := false }])]

/-- The initial path set: the root's entries. -/
def exPaths : List (String × List Entry) :=
  [(".", [{ name := "sub", isDir := true }, { name := "f", isDir := false }])]

/-- Witness for C8 at a concrete input: with `maxDepth = 1` exactly one
level is expanded, the visited set has no repeats, and the key of the one
expanded subdirectory is a one-level join; moreover the grandchild
directory's contents were never loaded (it is not a key of the result). -/
theorem walk_depth_bound_witness :
    ((walkDepth exFsys exPaths 1 true : Int) ≤ 1)
      ∧ (walkVisited exFsys exPaths 1 true).Nodup
      ∧ ("./sub" ∈ exPaths.map Prod.fst
          ∨ ∃ d es e, (d, es) ∈ exPaths ∧ e ∈ es ∧ e.isDir = true
              ∧ "./sub" = joinPath d e.name)
      ∧ "./sub/deep" ∉ (walk exFsys exPaths 1 true).map Prod.fst := by
  refine ⟨(walk_depth_bound exFsys exPaths 1 true).1 (by decide),
    (walk_depth_bound exFsys exPaths 1 true).2.1,
    (walk_depth_bound exFsys exPaths 1 true).2.2 "./sub" (by decide), ?_⟩
  decide
